import Mathlib

/-!
Verification of the core logic of `file_dashboard.py`: name sanitisation,
organizers, backup/rollback, quarantine collision naming, suspicion
heuristics, scan-report statuses and archive paths.

Python strings are embedded as `List Char`; filesystem paths as lists of
component names; filesystem trees as flat association lists from paths to
entries.  Fallible operations (which can raise in Python) return `Except`.
-/

/-- A Python string / filename, embedded as its list of characters. -/
abbrev PyStr := List Char

deriving instance DecidableEq for Except

/-- Python `str.isalnum` for a single character, i.e. the character is a
Unicode letter or digit/numeral.  The model is exact on the Basic Latin and
Latin-1 Supplement blocks (code points up to U+00FF); higher code points are
outside the modelled character range and are treated as non-alphanumeric. -/
def pyIsAlnum (c : Char) : Bool :=
  let n := c.toNat
  decide ((48 ≤ n ∧ n ≤ 57) ∨ (65 ≤ n ∧ n ≤ 90) ∨ (97 ≤ n ∧ n ≤ 122) ∨
    n = 0xAA ∨ n = 0xB5 ∨ n = 0xBA ∨
    n = 0xB2 ∨ n = 0xB3 ∨ n = 0xB9 ∨ (0xBC ≤ n ∧ n ≤ 0xBE) ∨
    (0xC0 ≤ n ∧ n ≤ 0xD6) ∨ (0xD8 ≤ n ∧ n ≤ 0xF6) ∨ (0xF8 ≤ n ∧ n ≤ 0xFF))

/-- One character of `safe_name`: `c if c.isalnum() or c in "-_." else "_"`. -/
def safeChar (c : Char) : Char :=
  if pyIsAlnum c || c = '-' || c = '_' || c = '.' then c else '_'

/-- `safe_name(s)`: `"".join(c if c.isalnum() or c in "-_." else "_" for c in s)`. -/
def safe_name (s : PyStr) : PyStr :=
  s.map safeChar

/-- Index of the last `'.'` in a name (Python `str.rfind('.')`), if any. -/
def rfindDot (n : PyStr) : Option Nat :=
  match n.reverse.findIdx? (fun c => decide (c = '.')) with
  | none => none
  | some k => some (n.length - 1 - k)

/-- Start index of `pathlib.PurePath.suffix` inside the final component `n`:
the last dot's index when `0 < i < len(n) - 1`, otherwise `n.length`
(meaning: no suffix). -/
def pSuffixStart (n : PyStr) : Nat :=
  match rfindDot n with
  | none => n.length
  | some i => if 0 < i ∧ i < n.length - 1 then i else n.length

/-- `pathlib.PurePath.suffix` of a file name. -/
def pathSuffix (n : PyStr) : PyStr :=
  n.drop (pSuffixStart n)

/-- `pathlib.PurePath.stem` of a file name. -/
def pathStem (n : PyStr) : PyStr :=
  n.take (pSuffixStart n)

/-- Start index of the extension per `os.path.splitext` on a bare file name:
the last dot's index, provided some earlier character is not a dot
(leading dots never start an extension); otherwise `n.length`. -/
def splitextStart (n : PyStr) : Nat :=
  match rfindDot n with
  | none => n.length
  | some i => if (n.take i).any (fun c => decide (¬ c = '.')) then i else n.length

/-- `os.path.splitext(n)[1]` for a bare file name `n`. -/
def splitextExt (n : PyStr) : PyStr :=
  n.drop (splitextStart n)

/-- ASCII lower-casing of one character (`str.lower` restricted to the ASCII
letters, which is all that matters for comparisons against the ASCII-only
suspicious-extension set). -/
def asciiLowerC (c : Char) : Char :=
  if 'A' ≤ c ∧ c ≤ 'Z' then Char.ofNat (c.toNat + 32) else c

/-- `str.lower` on a name. -/
def lowerStr (n : PyStr) : PyStr :=
  n.map asciiLowerC

/-- ASCII upper-casing of one character (`str.upper`, ASCII fragment). -/
def asciiUpperC (c : Char) : Char :=
  if 'a' ≤ c ∧ c ≤ 'z' then Char.ofNat (c.toNat - 32) else c

/-- `str.upper` on a name. -/
def upperStr (n : PyStr) : PyStr :=
  n.map asciiUpperC

/-- `str.lstrip(".")`: drop leading dots. -/
def lstripDots (n : PyStr) : PyStr :=
  n.dropWhile (fun c => decide (c = '.'))

/-- Number of `'.'` characters in a name (`name.count(".")`). -/
def countDots (n : PyStr) : Nat :=
  n.countP (fun c => decide (c = '.'))

/-- `name.startswith(".")`. -/
def startsWithDot (n : PyStr) : Bool :=
  match n with
  | '.' :: _ => true
  | _ => false

/-- The fixed suspicious extension set
`{".exe", ".bat", ".vbs", ".js", ".scr", ".cmd", ".dll", ".com", ".pif"}`. -/
def suspicious_exts : List PyStr :=
  [".exe", ".bat", ".vbs", ".js", ".scr", ".cmd", ".dll", ".com", ".pif"].map String.data

/-- `is_suspicious(path)` as a function of the file's final name component and
its size in bytes (the only inputs the Python code consults):
extension = `Path(path).suffix.lower()`; suspicious when the extension is in
the fixed set, or the name has more than one dot and the extension is in the
set, or the name starts with a dot, or the size exceeds `500 * 1024 * 1024`. -/
def is_suspicious (name : PyStr) (size : Nat) : Bool :=
  let ext := lowerStr (pathSuffix name)
  if ext ∈ suspicious_exts then true
  else if decide (countDots name > 1) && decide (ext ∈ suspicious_exts) then true
  else if startsWithDot name then true
  else if decide (size > 500 * 1024 * 1024) then true
  else false

/-- The `Status` column computed by `local_scan_report` for a file named `f`:
starts `"Clean"`, then each later matching rule reassigns it
(extension in the suspicious set per `os.path.splitext`; more than one dot
with a suspicious extension; leading dot). -/
def scan_status (f : PyStr) : String :=
  let ext := lowerStr (splitextExt f)
  let status := "Clean"
  let status := if ext ∈ suspicious_exts then "Suspicious" else status
  let status := if decide (countDots f > 1) && decide (ext ∈ suspicious_exts) then "Dangerous" else status
  let status := if startsWithDot f then "Hidden" else status
  status

/-- Decimal digit string of a number (Python `f"{i}"`). -/
def natDigits (k : Nat) : PyStr :=
  Nat.toDigits 10 k

/-- One retry of the quarantine collision loop: the next candidate name is
`f"{dest.stem}_{i}{dest.suffix}"` built from the previous candidate `cand`. -/
def next_cand (cand : PyStr) (i : Nat) : PyStr :=
  pathStem cand ++ '_' :: (natDigits i ++ pathSuffix cand)

/-- The `while dest.exists()` collision loop of `scan_and_quarantine`,
with explicit fuel (the loop itself is unbounded; `resolve_dest` supplies
enough fuel for it to finish, see `resolve_go_not_mem`). -/
def resolve_go (existing : List PyStr) : Nat → PyStr → Nat → PyStr
  | 0, cand, _ => cand
  | fuel + 1, cand, i =>
    if cand ∈ existing then resolve_go existing fuel (next_cand cand i) (i + 1) else cand

/-- Destination name chosen by `scan_and_quarantine` for a suspicious file
named `f` when the quarantine directory currently holds `existing`. -/
def resolve_dest (existing : List PyStr) (f : PyStr) : PyStr :=
  resolve_go existing (existing.length + 1) f 1

/-- The quarantine move loop: `q` is the current contents of `_quarantine`,
`moved` the accumulated destination list, and the third argument the
suspicious files remaining in walk order. -/
def scanRun : List PyStr → List PyStr → List PyStr → List PyStr × List PyStr
  | q, moved, [] => (q, moved)
  | q, moved, f :: rest =>
    let d := resolve_dest q f
    scanRun (d :: q) (moved ++ [d]) rest

/-- `scan_and_quarantine`, as a function of the initial quarantine contents
and the walk-ordered list of suspicious file names it moves; returns the
final quarantine contents and the list of destination names. -/
def scan_and_quarantine (initial : List PyStr) (files : List PyStr) :
    List PyStr × List PyStr :=
  scanRun initial [] files

/-- One folder as `organize_by_extension` sees it: the names of its
top-level regular files, and its immediate subfolders with their file
names. -/
structure Folder where
  files : List PyStr
  dirs : List (PyStr × List PyStr)
deriving DecidableEq

/-- The bucket for one file: `os.path.splitext(item)[1].lstrip(".").upper()
or "UNKNOWN"`. -/
def extBucket (item : PyStr) : PyStr :=
  let e := upperStr (lstripDots (splitextExt item))
  if e = [] then "UNKNOWN".data else e

/-- `shutil.move(p, os.path.join(dest, item))` into subfolder `d`,
creating it when absent and replacing a same-named file inside it. -/
def addToDir (dirs : List (PyStr × List PyStr)) (d item : PyStr) :
    List (PyStr × List PyStr) :=
  if dirs.any (fun x => decide (x.1 = d)) then
    dirs.map (fun x =>
      if x.1 = d then (x.1, item :: x.2.filter (fun y => decide (¬ y = item))) else x)
  else dirs ++ [(d, [item])]

/-- One iteration of the `organize_by_extension` loop on directory entry
`item`: skip unless it is currently a top-level file; `os.makedirs(dest,
exist_ok=True)` raises when a top-level *file* occupies the bucket name
(that call is outside the `try`); otherwise move the file into the bucket
subfolder. -/
def orgStep (st : Folder) (item : PyStr) : Except Unit Folder :=
  if item ∈ st.files then
    let dest := safe_name (extBucket item)
    if dest ∈ st.files then Except.error ()
    else Except.ok ⟨st.files.filter (fun y => decide (¬ y = item)), addToDir st.dirs dest item⟩
  else Except.ok st

/-- The `for item in os.listdir(folder)` loop. -/
def orgRun : Folder → List PyStr → Except Unit Folder
  | st, [] => Except.ok st
  | st, item :: rest =>
    match orgStep st item with
    | Except.error e => Except.error e
    | Except.ok st' => orgRun st' rest

/-- `organize_by_extension(folder)`: iterate over the directory listing
taken once at the start (top-level file names and subfolder names). -/
def organize_by_extension (st : Folder) : Except Unit Folder :=
  orgRun st (st.files ++ st.dirs.map Prod.fst)

/-- `Path(folder).with_suffix("")` applied to the folder's base name:
the (final) suffix is removed, i.e. the name is replaced by its stem. -/
def with_suffix_empty (n : PyStr) : PyStr :=
  pathStem n

/-- `create_zip_and_get_path(folder)` restricted to the base-name component
(the parent directory is carried over unchanged by both
`Path.with_suffix` and `shutil.make_archive`): the returned archive name is
`str(Path(folder).with_suffix("")) + ".zip"`. -/
def create_zip_and_get_path (n : PyStr) : PyStr :=
  with_suffix_empty n ++ ".zip".data

/-- Boolean test that `p` is an initial segment of `q` (used both for glob
matching of backup names and for filesystem-path ancestry). -/
def leadsTo {α : Type} [DecidableEq α] : List α → List α → Bool
  | [], _ => true
  | _ :: _, [] => false
  | a :: as, b :: bs => decide (a = b) && leadsTo as bs

/-- Backup snapshot directory name produced by `create_backup`:
`f"{safe_name(Path(folder).name)}_{timestamp}"`. -/
def backup_dir_name (folderBase ts : PyStr) : PyStr :=
  safe_name folderBase ++ '_' :: ts

/-- The backup listing of the rollback handler:
`BACKUP_ROOT.glob(f"{safe_name(Path(folder).name)}_*")`.  The output of
`safe_name` contains no glob metacharacters, so the pattern matches exactly
the entries extending the prefix `safe_name(name) + "_"`.  (The handler then
sorts the matches descending, which only reorders them and is irrelevant to
which snapshots are offered.) -/
def list_backups (entries : List PyStr) (folderBase : PyStr) : List PyStr :=
  entries.filter (fun e => leadsTo (safe_name folderBase ++ ['_']) e)

/-- One filesystem entry: a regular file (contents abstracted to a number)
or a directory. -/
inductive FsEntry
  | file (data : Nat)
  | dir
deriving DecidableEq

instance : Nonempty FsEntry := ⟨FsEntry.dir⟩

/-- A path below a root folder: its list of component names. -/
abbrev FsPath := List PyStr

/-- A folder tree, flattened: the entries of the tree keyed by path. -/
abbrev Fs := List (FsPath × FsEntry)

def isFileE : FsEntry → Bool
  | FsEntry.file _ => true
  | FsEntry.dir => false

/-- There is a regular file at path `p`. -/
def hasFileAt (fs : Fs) (p : FsPath) : Bool :=
  fs.any (fun e => decide (e.1 = p) && isFileE e.2)

/-- There is some entry (file or directory) at path `p`. -/
def hasEntryAt (fs : Fs) (p : FsPath) : Bool :=
  fs.any (fun e => decide (e.1 = p))

/-- Delete the entry at `p` and everything below it (`shutil.rmtree` /
`os.remove`); a no-op when nothing is there. -/
def removeSub (fs : Fs) (p : FsPath) : Fs :=
  fs.filter (fun e => ! leadsTo p e.1)

/-- The set (as a list) of regular-file paths of a tree. -/
def filePaths (fs : Fs) : List FsPath :=
  fs.filterMap (fun e => if isFileE e.2 then some e.1 else none)

/-- All entry paths of a tree. -/
def allPaths (fs : Fs) : List FsPath :=
  fs.map Prod.fst

/-- `os.makedirs(path, exist_ok=True)`: raises when a regular file occupies
`path` (this call in `rollback_from_backup` is outside any `try`), succeeds
doing nothing when a directory is already there, otherwise creates it. -/
def mkdirStep (st : Fs) (p : FsPath) : Except Unit Fs :=
  if hasFileAt st p then Except.error ()
  else Except.ok (if hasEntryAt st p then st else (p, FsEntry.dir) :: st)

/-- Restoring one file of the snapshot: `os.makedirs(os.path.dirname(dest),
exist_ok=True)` (outside the `try`; raises if a file occupies the parent
path), then inside the `try`: delete whatever sits at `dest` and
`shutil.copy2` the snapshot file there.  A copy failure (`fails p`) is
swallowed by the `except: pass`, leaving the destination deleted. -/
def copyFileStep (fails : FsPath → Bool) (st : Fs) (p : FsPath) (d : Nat) : Except Unit Fs :=
  if hasFileAt st p.dropLast then Except.error ()
  else Except.ok (if fails p then removeSub st p else (p, FsEntry.file d) :: removeSub st p)

/-- One snapshot entry processed by the `os.walk(backup_path)` loop. -/
def restoreStep (fails : FsPath → Bool) (st : Fs) (e : FsPath × FsEntry) : Except Unit Fs :=
  match e.2 with
  | FsEntry.dir => mkdirStep st e.1
  | FsEntry.file d => copyFileStep fails st e.1 d

/-- The full restore walk over the snapshot's entries. -/
def restoreRun (fails : FsPath → Bool) : Fs → Fs → Except Unit Fs
  | st, [] => Except.ok st
  | st, e :: rest =>
    match restoreStep fails st e with
    | Except.error err => Except.error err
    | Except.ok st' => restoreRun fails st' rest

/-- `rollback_from_backup(folder, backup_path)`: `none` models a missing
snapshot path (returns `False` at once); otherwise the walk runs and, if it
finishes, the function returns `True`.  An uncaught exception in the walk is
`Except.error`. -/
def rollback_from_backup (fails : FsPath → Bool) (cur : Fs) (snap : Option Fs) :
    Except Unit (Fs × Bool) :=
  match snap with
  | none => Except.ok (cur, false)
  | some l =>
    match restoreRun fails cur l with
    | Except.error err => Except.error err
    | Except.ok res => Except.ok (res, true)

/-- `create_backup(folder)` on the success path of `shutil.copytree`:
every directory and file of the source tree is reproduced in the snapshot. -/
def create_backup (fs : Fs) : Fs :=
  fs.map (fun e => (e.1, e.2))

/-- Well-formedness of a real on-disk tree: paths are distinct and
non-empty, and no regular file's path sits strictly above another entry. -/
def WFS (fs : Fs) : Prop :=
  (allPaths fs).Nodup ∧ (∀ p ∈ allPaths fs, p ≠ []) ∧
  (∀ p ∈ filePaths fs, ∀ q ∈ allPaths fs, leadsTo p q = true → p = q)

def sameKind : FsEntry → FsEntry → Bool
  | FsEntry.file _, FsEntry.file _ => true
  | FsEntry.dir, FsEntry.dir => true
  | _, _ => false

/-- `t'` arises from `orig` by deleting entries and modifying file contents
(the claim's "arbitrary deletions or modifications of files"): every entry
of `t'` sits at a path where `orig` has an entry of the same kind. -/
def SubShape (t' orig : Fs) : Prop :=
  ∀ e ∈ t', ∃ e' ∈ orig, e'.1 = e.1 ∧ sameKind e'.2 e.2 = true

instance (fs : Fs) : Decidable (WFS fs) := by
  unfold WFS
  infer_instance

instance (t' orig : Fs) : Decidable (SubShape t' orig) := by
  unfold SubShape
  infer_instance

/-- The directory paths of a tree. -/
def dirPaths (fs : Fs) : List FsPath :=
  fs.filterMap (fun e => if isFileE e.2 then none else some e.1)

/-- A real on-disk tree is closed under parents: every entry that is not a
direct child of the root lives inside a directory of the tree (this is the
shape `os.walk` enumerates). -/
def ParentClosed (fs : Fs) : Prop :=
  ∀ p ∈ allPaths fs, p.dropLast ≠ [] → p.dropLast ∈ dirPaths fs

instance (fs : Fs) : Decidable (ParentClosed fs) := by
  unfold ParentClosed
  infer_instance

/-- C6: a file whose (case-insensitively lowered) extension is in the
suspicious set is always flagged, and a file whose extension is outside the
set, whose size is at most 500 MiB, and whose name does not start with a dot
is never flagged. -/
theorem is_suspicious_spec (name : PyStr) (size : Nat) :
    (lowerStr (pathSuffix name) ∈ suspicious_exts → is_suspicious name size = true) ∧
    (lowerStr (pathSuffix name) ∉ suspicious_exts → size ≤ 500 * 1024 * 1024 →
      startsWithDot name = false → is_suspicious name size = false) := by
  constructor
  · intro hmem
    simp [is_suspicious, hmem]
  · intro hmem hsize hdot
    simp [is_suspicious, hmem, hdot]
    omega

/-- Witness for `is_suspicious_spec`: `"virus.EXE"` (size 0) is flagged and
`"notes.txt"` (size 0) is not. -/
theorem is_suspicious_spec_witness :
    is_suspicious ("virus.EXE".data) 0 = true ∧ is_suspicious ("notes.txt".data) 0 = false := by
  constructor
  · exact (is_suspicious_spec ("virus.EXE".data) 0).1 (by decide)
  · exact (is_suspicious_spec ("notes.txt".data) 0).2 (by decide) (by decide) (by decide)

/-- C7: the sequential reassignments of `local_scan_report` implement the
fixed precedence Hidden > Dangerous > Suspicious > Clean (a later rule
overrides every earlier one), and in particular the hidden double-extension
file `".secret.exe"` is reported as `"Hidden"`, not `"Dangerous"`. -/
theorem scan_status_precedence :
    (∀ f : PyStr, scan_status f =
      (if startsWithDot f then "Hidden"
       else if countDots f > 1 ∧ lowerStr (splitextExt f) ∈ suspicious_exts then "Dangerous"
       else if lowerStr (splitextExt f) ∈ suspicious_exts then "Suspicious"
       else "Clean")) ∧
    scan_status (".secret.exe".data) = "Hidden" := by
  constructor
  · intro f
    by_cases hdot : startsWithDot f <;>
      by_cases hcnt : countDots f > 1 <;>
        by_cases hext : lowerStr (splitextExt f) ∈ suspicious_exts <;>
          simp [scan_status, hdot, hcnt, hext]
  · decide

theorem countP_lt_of_mem {α : Type} (p q : α → Bool) (a : α) :
    ∀ l : List α, a ∈ l → p a = true → q a = false →
      (∀ x, q x = true → p x = true) → l.countP q < l.countP p := by
  intro l hmem hp hq himp
  induction l with
  | nil => cases hmem
  | cons b t ih =>
    rcases List.mem_cons.mp hmem with rfl | hbt
    · have hqt : t.countP q ≤ t.countP p := by
        apply List.countP_mono_left
        intro x _ hx
        exact himp x hx
      simp [List.countP_cons, hp, hq]
      omega
    · have := ih hbt
      by_cases hqb : q b = true
      · have hpb : p b = true := himp b hqb
        simp [List.countP_cons, hqb, hpb]
        omega
      · simp at hqb
        simp [List.countP_cons, hqb]
        omega

theorem next_cand_length (cand : PyStr) (i : Nat) :
    (next_cand cand i).length = cand.length + 1 + (natDigits i).length := by
  have h := congrArg List.length (List.take_append_drop (pSuffixStart cand) cand)
  simp [next_cand, pathStem, pathSuffix]
  simp at h
  omega

theorem resolve_go_not_mem (existing : List PyStr) :
    ∀ (fuel : Nat) (cand : PyStr) (i : Nat),
      existing.countP (fun e => decide (cand.length ≤ e.length)) < fuel →
      resolve_go existing fuel cand i ∉ existing := by
  intro fuel
  induction fuel with
  | zero => intro cand i h; omega
  | succ fuel ih =>
    intro cand i h
    by_cases hmem : cand ∈ existing
    · rw [resolve_go, if_pos hmem]
      apply ih
      have hlt : existing.countP (fun e => decide ((next_cand cand i).length ≤ e.length)) <
          existing.countP (fun e => decide (cand.length ≤ e.length)) := by
        apply countP_lt_of_mem _ _ cand existing hmem
        · simp
        · simp [next_cand_length]
          omega
        · intro x hx
          simp at hx ⊢
          have := next_cand_length cand i
          omega
      omega
    · rw [resolve_go, if_neg hmem]
      exact hmem

/-- The destination chosen for a quarantine move never already exists. -/
theorem resolve_dest_not_mem (existing : List PyStr) (f : PyStr) :
    resolve_dest existing f ∉ existing := by
  apply resolve_go_not_mem
  have := List.countP_le_length (fun e => decide (f.length ≤ e.length)) (l := existing)
  omega

theorem resolve_go_stop (existing : List PyStr) (fuel : Nat) (cand : PyStr) (i : Nat)
    (h : cand ∉ existing) : resolve_go existing (fuel + 1) cand i = cand := by
  rw [resolve_go, if_neg h]

theorem resolve_go_step (existing : List PyStr) (fuel : Nat) (cand : PyStr) (i : Nat)
    (h : cand ∈ existing) :
    resolve_go existing (fuel + 1) cand i = resolve_go existing fuel (next_cand cand i) (i + 1) := by
  rw [resolve_go, if_pos h]

/-- C3 counterexample: with `f.exe` and `f_1.exe` already in quarantine, a
third copy of `f.exe` is stored as `f_1_2.exe` — the suffixes accumulate —
not as the `f_2.exe` the claim predicts. -/
theorem quarantine_collision_cex :
    resolve_dest ["f.exe".data, "f_1.exe".data] ("f.exe".data) = "f_1_2.exe".data ∧
    ("f_1_2.exe".data : PyStr) ≠ "f_2.exe".data := by
  decide

/-- C3 (amended): each retry appends `_<i>` (i = 1, 2, …) to the stem of the
*previous candidate*, so the names tried are `f`, then `next_cand f 1`, then
`next_cand (next_cand f 1) 2`, and the first unused one is chosen. -/
theorem quarantine_collision_chain (existing : List PyStr) (f : PyStr)
    (h0 : f ∈ existing) (h1 : next_cand f 1 ∈ existing)
    (h2 : next_cand (next_cand f 1) 2 ∉ existing) :
    resolve_dest existing f = next_cand (next_cand f 1) 2 := by
  have hne : f ≠ next_cand f 1 := by
    intro heq
    have := next_cand_length f 1
    rw [← heq] at this
    omega
  have h2le : 2 ≤ existing.length := by
    have hmem' : next_cand f 1 ∈ existing.erase f :=
      (List.mem_erase_of_ne (Ne.symm hne)).mpr h1
    have hlen : (existing.erase f).length = existing.length - 1 :=
      List.length_erase_of_mem h0
    have h1le : 1 ≤ (existing.erase f).length :=
      List.length_pos.mpr (List.ne_nil_of_mem hmem')
    omega
  obtain ⟨K, hK⟩ : ∃ K, existing.length = K + 2 := ⟨existing.length - 2, by omega⟩
  unfold resolve_dest
  rw [hK]
  rw [show K + 2 + 1 = (K + 1) + 1 + 1 from rfl]
  rw [resolve_go_step existing _ f 1 h0]
  rw [resolve_go_step existing _ (next_cand f 1) 2 h1]
  exact resolve_go_stop existing K _ 3 h2

/-- Witness for `quarantine_collision_chain`: the accumulated third name for
`f.exe` given quarantine contents `[f.exe, f_1.exe]`. -/
theorem quarantine_collision_chain_witness :
    ("f.exe".data ∈ ["f.exe".data, "f_1.exe".data]) ∧
    resolve_dest ["f.exe".data, "f_1.exe".data] ("f.exe".data) =
      next_cand (next_cand ("f.exe".data) 1) 2 :=
  ⟨by decide, quarantine_collision_chain _ _ (by decide) (by decide) (by decide)⟩

/-- C4: the quarantine scanner never overwrites: the destination names it
produces are pairwise distinct and none of them is a pre-existing quarantine
entry. -/
theorem scan_never_overwrites (initial : List PyStr) (files : List PyStr) :
    (scan_and_quarantine initial files).2.Nodup ∧
    ∀ d ∈ (scan_and_quarantine initial files).2, d ∉ initial := by
  suffices h : ∀ (fs q moved : List PyStr), moved.Nodup → (∀ d ∈ moved, d ∈ q) →
      (∀ d ∈ moved, d ∉ initial) → (∀ x ∈ initial, x ∈ q) →
      (scanRun q moved fs).2.Nodup ∧ ∀ d ∈ (scanRun q moved fs).2, d ∉ initial by
    exact h files initial [] (by simp) (by simp) (by simp) (by simp)
  intro fs
  induction fs with
  | nil =>
    intro q moved h1 _ h3 _
    exact ⟨h1, h3⟩
  | cons f rest ih =>
    intro q moved h1 h2 h3 h4
    have hd : resolve_dest q f ∉ q := resolve_dest_not_mem q f
    rw [scanRun]
    apply ih
    · rw [List.nodup_append]
      refine ⟨h1, by simp, ?_⟩
      intro x hx hx'
      simp at hx'
      exact hd (hx' ▸ h2 x hx)
    · intro d hdm
      rcases List.mem_append.mp hdm with hl | hr
      · exact List.mem_cons_of_mem _ (h2 d hl)
      · simp at hr
        subst hr
        exact List.mem_cons_self _ _
    · intro d hdm
      rcases List.mem_append.mp hdm with hl | hr
      · exact h3 d hl
      · simp at hr
        subst hr
        intro hin
        exact hd (h4 _ hin)
    · intro x hx
      exact List.mem_cons_of_mem _ (h4 x hx)

theorem orgRun_files :
    ∀ (l : List PyStr) (st st' : Folder), orgRun st l = Except.ok st' →
      st'.files = st.files.filter (fun x => decide (x ∉ l)) := by
  intro l
  induction l with
  | nil =>
    intro st st' h
    rw [orgRun] at h
    cases h
    simp
  | cons item rest ih =>
    intro st st' h
    rw [orgRun] at h
    by_cases hmem : item ∈ st.files
    · by_cases hdest : safe_name (extBucket item) ∈ st.files
      · rw [orgStep, if_pos hmem] at h
        simp only [if_pos hdest] at h
        cases h
      · rw [orgStep, if_pos hmem] at h
        simp only [if_neg hdest] at h
        have := ih _ _ h
        rw [this]
        simp only [List.filter_filter]
        apply List.filter_congr
        intro x _
        by_cases hx : x = item <;> simp [hx, List.mem_cons]
    · rw [orgStep, if_neg hmem] at h
      have := ih _ _ h
      rw [this]
      apply List.filter_congr
      intro x hx
      have : ¬ x = item := fun he => hmem (he ▸ hx)
      simp [List.mem_cons, this]

theorem orgRun_no_files (l : List PyStr) :
    ∀ st : Folder, st.files = [] → orgRun st l = Except.ok st := by
  induction l with
  | nil => intro st _; rw [orgRun]
  | cons item rest ih =>
    intro st hst
    rw [orgRun, orgStep, if_neg (by rw [hst]; simp)]
    exact ih st hst

/-- C5: `organize_by_extension` is idempotent — a completed run moves every
top-level file into a bucket subfolder, so a second run over the result
finds no top-level files, moves nothing and returns the state unchanged. -/
theorem organize_by_extension_idem (s s' : Folder)
    (h : organize_by_extension s = Except.ok s') :
    organize_by_extension s' = Except.ok s' := by
  have hfiles : s'.files = [] := by
    have := orgRun_files _ _ _ h
    rw [this]
    rw [List.filter_eq_nil_iff]
    intro a ha
    simp [List.mem_append, ha]
  rw [organize_by_extension, hfiles]
  exact orgRun_no_files _ _ hfiles

/-- Witness for `organize_by_extension_idem`: organizing a folder holding
only `a.txt` yields a `TXT` subfolder, and re-organizing that result is a
no-op. -/
theorem organize_by_extension_idem_witness :
    organize_by_extension ⟨["a.txt".data], []⟩ =
      Except.ok ⟨[], [("TXT".data, ["a.txt".data])]⟩ ∧
    organize_by_extension ⟨[], [("TXT".data, ["a.txt".data])]⟩ =
      Except.ok ⟨[], [("TXT".data, ["a.txt".data])]⟩ :=
  ⟨by decide, organize_by_extension_idem ⟨["a.txt".data], []⟩ _ (by decide)⟩

theorem leadsTo_append {α : Type} [DecidableEq α] (p r : List α) :
    leadsTo p (p ++ r) = true := by
  induction p with
  | nil => rw [leadsTo]
  | cons a as ih => simpa [leadsTo] using ih

theorem leadsTo_refl {α : Type} [DecidableEq α] (p : List α) :
    leadsTo p p = true := by
  simpa using leadsTo_append p []

/-- C9 counterexample: a folder named `my.folder` is archived at `my.zip`
(`with_suffix("")` strips the dotted tail), not at the claimed
`my.folder.zip`. -/
theorem zip_path_cex :
    create_zip_and_get_path ("my.folder".data) = "my.zip".data ∧
    ("my.zip".data : PyStr) ≠ "my.folder.zip".data := by
  decide

/-- C9 (amended): the archive name is the folder's base name *with its final
suffix removed* plus `".zip"`; it equals the full base name plus `".zip"`
exactly when the base name has no suffix. -/
theorem zip_path_spec (n : PyStr) :
    create_zip_and_get_path n = pathStem n ++ ".zip".data ∧
    (pathSuffix n = [] → create_zip_and_get_path n = n ++ ".zip".data) := by
  constructor
  · rfl
  · intro h
    have hsplit := List.take_append_drop (pSuffixStart n) n
    rw [create_zip_and_get_path, with_suffix_empty]
    rw [pathSuffix] at h
    rw [pathStem]
    rw [h] at hsplit
    simp at hsplit
    rw [List.take_of_length_le hsplit]

/-- Witness for `zip_path_spec`: the dot-free folder name `report` zips to
`report.zip`. -/
theorem zip_path_spec_witness :
    pathSuffix ("report".data) = [] ∧
    create_zip_and_get_path ("report".data) = "report.zip".data := by
  refine ⟨by decide, ?_⟩
  rw [(zip_path_spec ("report".data)).2 (by decide)]
  decide

/-- C10: the backup listing selects snapshots purely by the glob prefix, so
a snapshot of a folder whose sanitised name is `X_Y` also shows up in the
listing for a folder whose sanitised name is `X`. -/
theorem list_backups_cross_match (b1 b2 y ts : PyStr) (entries : List PyStr)
    (hsafe : safe_name b2 = safe_name b1 ++ '_' :: y)
    (hmem : backup_dir_name b2 ts ∈ entries) :
    backup_dir_name b2 ts ∈ list_backups entries b1 := by
  rw [list_backups, List.mem_filter]
  refine ⟨hmem, ?_⟩
  rw [backup_dir_name, hsafe]
  have hassoc : safe_name b1 ++ '_' :: y ++ '_' :: ts =
      (safe_name b1 ++ ['_']) ++ (y ++ '_' :: ts) := by
    simp
  rw [hassoc]
  exact leadsTo_append _ _

/-- Witness for `list_backups_cross_match`: a snapshot of `data_old` is
offered among the backups of `data`. -/
theorem list_backups_cross_match_witness :
    safe_name ("data_old".data) = safe_name ("data".data) ++ '_' :: "old".data ∧
    backup_dir_name ("data_old".data) ("20250101_120000".data) ∈
      list_backups [backup_dir_name ("data_old".data) ("20250101_120000".data)]
        ("data".data) :=
  ⟨by decide,
    list_backups_cross_match ("data".data) ("data_old".data) ("old".data)
      ("20250101_120000".data) _ (by decide) (by decide)⟩

/-- C8 counterexample: `safe_name` keeps the non-ASCII letter `é` (Python
`isalnum` is Unicode-aware), so the output on "café" is "café", not the
"caf_" the claim's ASCII-only replacement rule predicts. -/
theorem safe_name_keeps_nonascii_cex :
    safe_name ("café".data) = "café".data ∧ ("café".data : PyStr) ≠ "caf_".data := by
  decide

/-- C8 (amended): restricted to ASCII characters, `safe_name` maps a
character to itself exactly when it lies in `[A-Za-z0-9._-]` and to `'_'`
otherwise (non-ASCII alphanumeric characters, by contrast, are kept). -/
theorem safe_name_ascii_class (n : Nat) (h : n < 128) :
    safe_name [Char.ofNat n] =
      [if (65 ≤ n ∧ n ≤ 90) ∨ (97 ≤ n ∧ n ≤ 122) ∨ (48 ≤ n ∧ n ≤ 57) ∨
          n = 46 ∨ n = 95 ∨ n = 45
       then Char.ofNat n else '_'] := by
  revert h
  revert n
  decide

/-- Witness for `safe_name_ascii_class` at `'/'` (code point 47): a slash is
outside the safe class and is replaced by an underscore. -/
theorem safe_name_ascii_class_witness :
    47 < 128 ∧ safe_name [Char.ofNat 47] = ['_'] := by
  refine ⟨by decide, ?_⟩
  have h := safe_name_ascii_class 47 (by decide)
  simpa using h

theorem mem_filePaths {fs : Fs} {p : FsPath} :
    p ∈ filePaths fs ↔ ∃ d, (p, FsEntry.file d) ∈ fs := by
  constructor
  · intro h
    rw [filePaths, List.mem_filterMap] at h
    obtain ⟨⟨q, ent⟩, hmem, hif⟩ := h
    cases ent with
    | file d =>
      simp [isFileE] at hif
      exact ⟨d, hif ▸ hmem⟩
    | dir => simp [isFileE] at hif
  · rintro ⟨d, hd⟩
    rw [filePaths, List.mem_filterMap]
    exact ⟨(p, FsEntry.file d), hd, by simp [isFileE]⟩

theorem filePaths_sub_allPaths (fs : Fs) : ∀ p ∈ filePaths fs, p ∈ allPaths fs := by
  intro p hp
  obtain ⟨d, hd⟩ := mem_filePaths.mp hp
  exact List.mem_map_of_mem _ hd

theorem hasFileAt_iff {fs : Fs} {p : FsPath} : hasFileAt fs p = true ↔ p ∈ filePaths fs := by
  rw [hasFileAt, List.any_eq_true, mem_filePaths]
  constructor
  · rintro ⟨⟨q, ent⟩, hmem, hcond⟩
    rw [Bool.and_eq_true] at hcond
    obtain ⟨hq, hf⟩ := hcond
    rw [decide_eq_true_eq] at hq
    cases ent with
    | file d => exact ⟨d, hq ▸ hmem⟩
    | dir => simp [isFileE] at hf
  · rintro ⟨d, hd⟩
    exact ⟨(p, FsEntry.file d), hd, by simp [isFileE]⟩

theorem nodup_keys_eq :
    ∀ fs : Fs, (allPaths fs).Nodup →
      ∀ {p : FsPath} {a b : FsEntry}, (p, a) ∈ fs → (p, b) ∈ fs → a = b := by
  intro fs
  induction fs with
  | nil => intro _ p a b ha; cases ha
  | cons e t ih =>
    intro h p a b ha hb
    rw [allPaths, List.map_cons, List.nodup_cons] at h
    obtain ⟨h1, h2⟩ := h
    rcases List.mem_cons.mp ha with ha' | ha'
    · rcases List.mem_cons.mp hb with hb' | hb'
      · rw [← ha'] at hb'
        injection hb' with _ hab
        exact hab.symm
      · exfalso
        apply h1
        rw [← ha']
        show p ∈ List.map Prod.fst t
        exact List.mem_map.mpr ⟨(p, b), hb', rfl⟩
    · rcases List.mem_cons.mp hb with hb' | hb'
      · exfalso
        apply h1
        rw [← hb']
        show p ∈ List.map Prod.fst t
        exact List.mem_map.mpr ⟨(p, a), ha', rfl⟩
      · exact ih h2 ha' hb'

theorem filePaths_cons_dir (st : Fs) (p : FsPath) :
    filePaths ((p, FsEntry.dir) :: st) = filePaths st := by
  simp [filePaths, List.filterMap_cons, isFileE]

theorem filePaths_cons_file (st : Fs) (p : FsPath) (d : Nat) :
    filePaths ((p, FsEntry.file d) :: st) = p :: filePaths st := by
  simp [filePaths, List.filterMap_cons, isFileE]

theorem mem_filePaths_removeSub {st : Fs} {q p : FsPath} :
    p ∈ filePaths (removeSub st q) ↔ p ∈ filePaths st ∧ leadsTo q p = false := by
  constructor
  · intro h
    obtain ⟨d, hd⟩ := mem_filePaths.mp h
    rw [removeSub, List.mem_filter] at hd
    obtain ⟨hmem, hcond⟩ := hd
    refine ⟨mem_filePaths.mpr ⟨d, hmem⟩, ?_⟩
    simpa using hcond
  · rintro ⟨hp, hlf⟩
    obtain ⟨d, hd⟩ := mem_filePaths.mp hp
    refine mem_filePaths.mpr ⟨d, ?_⟩
    rw [removeSub, List.mem_filter]
    exact ⟨hd, by simp [hlf]⟩

theorem dropLast_leadsTo (p : FsPath) (h : p ≠ []) : leadsTo p.dropLast p = true := by
  have heq := List.dropLast_append_getLast h
  have h2 := leadsTo_append p.dropLast [p.getLast h]
  rw [heq] at h2
  exact h2

theorem dropLast_ne (p : FsPath) (h : p ≠ []) : p.dropLast ≠ p := by
  intro heq
  have hlen := congrArg List.length heq
  rw [List.length_dropLast] at hlen
  have : 0 < p.length := List.length_pos.mpr h
  omega

theorem restoreRun_ok (fails : FsPath → Bool) (orig : Fs) (hwf : WFS orig) :
    ∀ l : Fs, (∀ e ∈ l, e ∈ orig) → ∀ st : Fs, (∀ p ∈ filePaths st, p ∈ filePaths orig) →
      ∃ res, restoreRun fails st l = Except.ok res ∧
        (∀ p ∈ filePaths st, ¬(p ∈ filePaths l ∧ fails p = true) → p ∈ filePaths res) ∧
        (∀ p ∈ filePaths l, fails p = false → p ∈ filePaths res) := by
  obtain ⟨hnd, hne, hnest⟩ := hwf
  intro l
  induction l with
  | nil =>
    intro _ st hst
    exact ⟨st, by rw [restoreRun], fun p hp _ => hp, by simp [filePaths]⟩
  | cons e rest ih =>
    intro hl st hst
    obtain ⟨q, ent⟩ := e
    have hqorig : (q, ent) ∈ orig := hl _ (List.mem_cons_self _ _)
    have hqall : q ∈ allPaths orig := List.mem_map.mpr ⟨(q, ent), hqorig, rfl⟩
    cases ent with
    | dir =>
      have hqnf : q ∉ filePaths orig := by
        intro hq
        obtain ⟨d, hd⟩ := mem_filePaths.mp hq
        exact FsEntry.noConfusion (nodup_keys_eq orig hnd hd hqorig)
      have hnofile : hasFileAt st q = false := by
        by_contra htrue
        rw [Bool.not_eq_false] at htrue
        exact hqnf (hst q (hasFileAt_iff.mp htrue))
      have hstep : restoreStep fails st (q, FsEntry.dir) =
          Except.ok (if hasEntryAt st q then st else (q, FsEntry.dir) :: st) := by
        simp [restoreStep, mkdirStep, hnofile]
      have hfp₁ : filePaths (if hasEntryAt st q then st else (q, FsEntry.dir) :: st) =
          filePaths st := by
        by_cases hE : hasEntryAt st q <;> simp [hE, filePaths_cons_dir]
      obtain ⟨res, hok, hkeep, hnew⟩ :=
        ih (fun e' he' => hl e' (List.mem_cons_of_mem _ he'))
          (if hasEntryAt st q then st else (q, FsEntry.dir) :: st)
          (by rw [hfp₁]; exact hst)
      refine ⟨res, by rw [restoreRun, hstep]; exact hok, ?_, ?_⟩
      · intro p hp hcond
        apply hkeep p (by rw [hfp₁]; exact hp)
        rintro ⟨h1, h2⟩
        exact hcond ⟨by rw [filePaths_cons_dir]; exact h1, h2⟩
      · intro p hp hf
        rw [filePaths_cons_dir] at hp
        exact hnew p hp hf
    | file d =>
      have hqf : q ∈ filePaths orig := mem_filePaths.mpr ⟨d, hqorig⟩
      have hqn : q ≠ [] := hne q hqall
      have hpar : hasFileAt st q.dropLast = false := by
        by_contra htrue
        rw [Bool.not_eq_false] at htrue
        have hmem := hst _ (hasFileAt_iff.mp htrue)
        exact dropLast_ne q hqn (hnest _ hmem q hqall (dropLast_leadsTo q hqn))
      have hremove : ∀ p ∈ filePaths st, p ≠ q → p ∈ filePaths (removeSub st q) := by
        intro p hp hne'
        rw [mem_filePaths_removeSub]
        refine ⟨hp, ?_⟩
        by_contra hlf
        rw [Bool.not_eq_false] at hlf
        exact hne'
          (hnest q hqf p (filePaths_sub_allPaths orig p (hst p hp)) hlf).symm
      have hsubrem : ∀ p ∈ filePaths (removeSub st q), p ∈ filePaths orig := by
        intro p hp
        exact hst p (mem_filePaths_removeSub.mp hp).1
      by_cases hfq : fails q = true
      · have hstep : restoreStep fails st (q, FsEntry.file d) = Except.ok (removeSub st q) := by
          simp [restoreStep, copyFileStep, hpar, hfq]
        obtain ⟨res, hok, hkeep, hnew⟩ :=
          ih (fun e' he' => hl e' (List.mem_cons_of_mem _ he')) (removeSub st q) hsubrem
        refine ⟨res, by rw [restoreRun, hstep]; exact hok, ?_, ?_⟩
        · intro p hp hcond
          by_cases hpq : p = q
          · exfalso
            apply hcond
            subst hpq
            exact ⟨by rw [filePaths_cons_file]; exact List.mem_cons_self _ _, hfq⟩
          · apply hkeep p (hremove p hp hpq)
            rintro ⟨h1, h2⟩
            exact hcond ⟨by rw [filePaths_cons_file]; exact List.mem_cons_of_mem _ h1, h2⟩
        · intro p hp hf
          rw [filePaths_cons_file] at hp
          rcases List.mem_cons.mp hp with rfl | hrest
          · rw [hf] at hfq
            cases hfq
          · exact hnew p hrest hf
      · rw [Bool.not_eq_true] at hfq
        have hstep : restoreStep fails st (q, FsEntry.file d) =
            Except.ok ((q, FsEntry.file d) :: removeSub st q) := by
          simp [restoreStep, copyFileStep, hpar, hfq]
        have hsub₁ : ∀ p ∈ filePaths ((q, FsEntry.file d) :: removeSub st q),
            p ∈ filePaths orig := by
          intro p hp
          rw [filePaths_cons_file] at hp
          rcases List.mem_cons.mp hp with rfl | hp'
          · exact hqf
          · exact hsubrem p hp'
        obtain ⟨res, hok, hkeep, hnew⟩ :=
          ih (fun e' he' => hl e' (List.mem_cons_of_mem _ he'))
            ((q, FsEntry.file d) :: removeSub st q) hsub₁
        refine ⟨res, by rw [restoreRun, hstep]; exact hok, ?_, ?_⟩
        · intro p hp hcond
          by_cases hpq : p = q
          · subst hpq
            apply hkeep p (by rw [filePaths_cons_file]; exact List.mem_cons_self _ _)
            rintro ⟨_, h2⟩
            rw [hfq] at h2
            cases h2
          · apply hkeep p
              (by rw [filePaths_cons_file]; exact List.mem_cons_of_mem _ (hremove p hp hpq))
            rintro ⟨h1, h2⟩
            exact hcond ⟨by rw [filePaths_cons_file]; exact List.mem_cons_of_mem _ h1, h2⟩
        · intro p hp hf
          rw [filePaths_cons_file] at hp
          rcases List.mem_cons.mp hp with rfl | hrest
          · apply hkeep p (by rw [filePaths_cons_file]; exact List.mem_cons_self _ _)
            rintro ⟨_, h2⟩
            rw [hf] at h2
            cases h2
          · exact hnew p hrest hf

theorem create_backup_eq (fs : Fs) : create_backup fs = fs := by
  simp [create_backup]

/-- C1: after `create_backup`, arbitrary deletions/modifications of files
(`SubShape t' orig`), and `rollback_from_backup` on the snapshot, the
restored tree's file set is a superset of the pre-backup file set, ignoring
entries lost to best-effort per-entry copy failures (`fails`). -/
theorem backup_rollback_superset (orig t' : Fs) (fails : FsPath → Bool)
    (hwf : WFS orig) (hsub : SubShape t' orig) :
    ∃ res, rollback_from_backup fails t' (some (create_backup orig)) = Except.ok (res, true) ∧
      ∀ p ∈ filePaths orig, fails p = false → p ∈ filePaths res := by
  rw [create_backup_eq]
  have hsubf : ∀ p ∈ filePaths t', p ∈ filePaths orig := by
    intro p hp
    obtain ⟨d, hd⟩ := mem_filePaths.mp hp
    obtain ⟨e', he', hfst, hkind⟩ := hsub _ hd
    obtain ⟨q', ent'⟩ := e'
    cases ent' with
    | file d' =>
      simp at hfst
      subst hfst
      exact mem_filePaths.mpr ⟨d', he'⟩
    | dir => simp [sameKind] at hkind
  obtain ⟨res, hok, _, hnew⟩ :=
    restoreRun_ok fails orig hwf orig (fun _ he => he) t' hsubf
  refine ⟨res, ?_, hnew⟩
  simp only [rollback_from_backup]
  rw [hok]

/-- Witness for `backup_rollback_superset`: a folder `{a ↦ 0, b ↦ 1}` where
`a` was modified and `b` deleted is restored to hold both files again. -/
theorem backup_rollback_superset_witness :
    WFS [([['a']], FsEntry.file 0), ([['b']], FsEntry.file 1)] ∧
    SubShape [([['a']], FsEntry.file 5)]
      [([['a']], FsEntry.file 0), ([['b']], FsEntry.file 1)] ∧
    ∃ res, rollback_from_backup (fun _ => false) [([['a']], FsEntry.file 5)]
        (some (create_backup [([['a']], FsEntry.file 0), ([['b']], FsEntry.file 1)])) =
        Except.ok (res, true) ∧
      ∀ p ∈ filePaths [([['a']], FsEntry.file 0), ([['b']], FsEntry.file 1)],
        (fun _ : FsPath => false) p = false → p ∈ filePaths res :=
  ⟨by decide, by decide,
    backup_rollback_superset [([['a']], FsEntry.file 0), ([['b']], FsEntry.file 1)]
      [([['a']], FsEntry.file 5)] (fun _ => false) (by decide) (by decide)⟩

/-- C2 counterexample: the snapshot holds a directory `d` while the current
folder holds a regular file `d`; the snapshot path exists, yet
`rollback_from_backup` raises out of the unprotected `os.makedirs` call and
returns neither `True` nor `False`. -/
theorem rollback_raises_cex :
    rollback_from_backup (fun _ => false) [([['d']], FsEntry.file 0)]
      (some [([['d']], FsEntry.dir)]) = Except.error () := by
  decide

theorem mem_dirPaths {fs : Fs} {p : FsPath} : p ∈ dirPaths fs ↔ (p, FsEntry.dir) ∈ fs := by
  constructor
  · intro h
    rw [dirPaths, List.mem_filterMap] at h
    obtain ⟨⟨q, ent⟩, hmem, hif⟩ := h
    cases ent with
    | file d => simp [isFileE] at hif
    | dir =>
      simp [isFileE] at hif
      exact hif ▸ hmem
  · intro h
    rw [dirPaths, List.mem_filterMap]
    exact ⟨(p, FsEntry.dir), h, by simp [isFileE]⟩

theorem restoreRun_completes (fails : FsPath → Bool) (s cur : Fs)
    (hwf : WFS s) (hpc : ParentClosed s)
    (hdir : ∀ p ∈ dirPaths s, hasFileAt cur p = false)
    (hroot : hasFileAt cur [] = false) :
    ∀ l : Fs, (∀ e ∈ l, e ∈ s) → ∀ st : Fs,
      (∀ p ∈ filePaths st, p ∈ filePaths cur ∨ p ∈ filePaths s) →
      ∃ res, restoreRun fails st l = Except.ok res := by
  obtain ⟨hnd, hne, _⟩ := hwf
  intro l
  induction l with
  | nil =>
    intro _ st _
    exact ⟨st, by rw [restoreRun]⟩
  | cons e rest ih =>
    intro hl st hst
    obtain ⟨q, ent⟩ := e
    have hqs : (q, ent) ∈ s := hl _ (List.mem_cons_self _ _)
    cases ent with
    | dir =>
      have hqdir : q ∈ dirPaths s := mem_dirPaths.mpr hqs
      have hnofile : hasFileAt st q = false := by
        by_contra htrue
        rw [Bool.not_eq_false] at htrue
        rcases hst q (hasFileAt_iff.mp htrue) with hc | hs2
        · have h1 := hasFileAt_iff.mpr hc
          rw [hdir q hqdir] at h1
          exact Bool.noConfusion h1
        · obtain ⟨d, hd⟩ := mem_filePaths.mp hs2
          exact FsEntry.noConfusion (nodup_keys_eq s hnd hd (mem_dirPaths.mp hqdir))
      have hstep : restoreStep fails st (q, FsEntry.dir) =
          Except.ok (if hasEntryAt st q then st else (q, FsEntry.dir) :: st) := by
        simp [restoreStep, mkdirStep, hnofile]
      have hfp₁ : filePaths (if hasEntryAt st q then st else (q, FsEntry.dir) :: st) =
          filePaths st := by
        by_cases hE : hasEntryAt st q <;> simp [hE, filePaths_cons_dir]
      obtain ⟨res, hok⟩ :=
        ih (fun e' he' => hl e' (List.mem_cons_of_mem _ he'))
          (if hasEntryAt st q then st else (q, FsEntry.dir) :: st)
          (by rw [hfp₁]; exact hst)
      exact ⟨res, by rw [restoreRun, hstep]; exact hok⟩
    | file d =>
      have hqall : q ∈ allPaths s := List.mem_map.mpr ⟨(q, FsEntry.file d), hqs, rfl⟩
      have hparfile : hasFileAt st q.dropLast = false := by
        by_contra htrue
        rw [Bool.not_eq_false] at htrue
        have hmem := hst _ (hasFileAt_iff.mp htrue)
        by_cases hnil : q.dropLast = []
        · rw [hnil] at hmem
          rcases hmem with hc | hs2
          · have h1 := hasFileAt_iff.mpr hc
            rw [hroot] at h1
            exact Bool.noConfusion h1
          · exact hne [] (filePaths_sub_allPaths s [] hs2) rfl
        · have hpdir : q.dropLast ∈ dirPaths s := hpc q hqall hnil
          rcases hmem with hc | hs2
          · have h1 := hasFileAt_iff.mpr hc
            rw [hdir _ hpdir] at h1
            exact Bool.noConfusion h1
          · obtain ⟨d', hd'⟩ := mem_filePaths.mp hs2
            exact FsEntry.noConfusion (nodup_keys_eq s hnd hd' (mem_dirPaths.mp hpdir))
      by_cases hfq : fails q = true
      · have hstep : restoreStep fails st (q, FsEntry.file d) = Except.ok (removeSub st q) := by
          simp [restoreStep, copyFileStep, hparfile, hfq]
        obtain ⟨res, hok⟩ :=
          ih (fun e' he' => hl e' (List.mem_cons_of_mem _ he')) (removeSub st q)
            (fun p hp => hst p (mem_filePaths_removeSub.mp hp).1)
        exact ⟨res, by rw [restoreRun, hstep]; exact hok⟩
      · rw [Bool.not_eq_true] at hfq
        have hstep : restoreStep fails st (q, FsEntry.file d) =
            Except.ok ((q, FsEntry.file d) :: removeSub st q) := by
          simp [restoreStep, copyFileStep, hparfile, hfq]
        obtain ⟨res, hok⟩ :=
          ih (fun e' he' => hl e' (List.mem_cons_of_mem _ he'))
            ((q, FsEntry.file d) :: removeSub st q)
            (by
              intro p hp
              rw [filePaths_cons_file] at hp
              rcases List.mem_cons.mp hp with rfl | hp'
              · exact Or.inr (mem_filePaths.mpr ⟨d, hqs⟩)
              · exact hst p (mem_filePaths_removeSub.mp hp').1)
        exact ⟨res, by rw [restoreRun, hstep]; exact hok⟩

/-- C2 (amended): `rollback` returns `False` exactly when the snapshot path
is missing; when the snapshot exists (a well-formed, parent-closed real
tree), no current file occupies a snapshot directory path, and the folder
root itself is a directory, the walk completes and it returns `True` even
when per-entry copies fail; but a directory-creation conflict raises
instead of returning. -/
theorem rollback_return_spec :
    (∀ (fails : FsPath → Bool) (cur : Fs),
      rollback_from_backup fails cur none = Except.ok (cur, false)) ∧
    (∀ (fails : FsPath → Bool) (cur snap res : Fs),
      rollback_from_backup fails cur (some snap) ≠ Except.ok (res, false)) ∧
    (∀ (fails : FsPath → Bool) (snap cur : Fs), WFS snap → ParentClosed snap →
      (∀ p ∈ dirPaths snap, hasFileAt cur p = false) → hasFileAt cur [] = false →
      ∃ res, rollback_from_backup fails cur (some snap) = Except.ok (res, true)) := by
  refine ⟨fun fails cur => rfl, ?_, ?_⟩
  · intro fails cur snap res h
    rw [rollback_from_backup] at h
    cases hrun : restoreRun fails cur snap with
    | error err => rw [hrun] at h; cases h
    | ok r =>
      rw [hrun] at h
      cases h
  · intro fails snap cur hwf hpc hdir hroot
    obtain ⟨res, hok⟩ :=
      restoreRun_completes fails snap cur hwf hpc hdir hroot snap (fun _ he => he) cur
        (fun p hp => Or.inl hp)
    refine ⟨res, ?_⟩
    simp only [rollback_from_backup]
    rw [hok]

/-- Witness for `rollback_return_spec`: the post-organize rollback state.
The snapshot is the pre-organize folder `{docs/, docs/b.txt, a.txt}`; the
current folder is the organized result `{docs/, docs/b.txt, TXT/,
TXT/a.txt}` — it holds files at paths outside the snapshot, but no file of
it occupies the snapshot directory `docs`, so rollback returns `True`. -/
theorem rollback_return_spec_witness :
    WFS [(["docs".data], FsEntry.dir), (["docs".data, "b.txt".data], FsEntry.file 1),
      (["a.txt".data], FsEntry.file 0)] ∧
    (∀ p ∈ dirPaths [(["docs".data], FsEntry.dir),
        (["docs".data, "b.txt".data], FsEntry.file 1), (["a.txt".data], FsEntry.file 0)],
      hasFileAt [(["docs".data], FsEntry.dir), (["docs".data, "b.txt".data], FsEntry.file 1),
        (["TXT".data], FsEntry.dir), (["TXT".data, "a.txt".data], FsEntry.file 0)] p = false) ∧
    ∃ res, rollback_from_backup (fun _ => false)
        [(["docs".data], FsEntry.dir), (["docs".data, "b.txt".data], FsEntry.file 1),
          (["TXT".data], FsEntry.dir), (["TXT".data, "a.txt".data], FsEntry.file 0)]
        (some [(["docs".data], FsEntry.dir), (["docs".data, "b.txt".data], FsEntry.file 1),
          (["a.txt".data], FsEntry.file 0)]) =
      Except.ok (res, true) :=
  ⟨by decide, by decide,
    rollback_return_spec.2.2 (fun _ => false)
      [(["docs".data], FsEntry.dir), (["docs".data, "b.txt".data], FsEntry.file 1),
        (["a.txt".data], FsEntry.file 0)]
      [(["docs".data], FsEntry.dir), (["docs".data, "b.txt".data], FsEntry.file 1),
        (["TXT".data], FsEntry.dir), (["TXT".data, "a.txt".data], FsEntry.file 0)]
      (by decide) (by decide) (by decide) (by decide)⟩

/-- Witness for `scan_never_overwrites`: quarantining two copies of `x.exe`
into a quarantine already holding `x.exe` yields distinct fresh names. -/
theorem scan_never_overwrites_witness :
    (scan_and_quarantine ["x.exe".data] ["x.exe".data, "x.exe".data]).2.Nodup ∧
    ∀ d ∈ (scan_and_quarantine ["x.exe".data] ["x.exe".data, "x.exe".data]).2,
      d ∉ ["x.exe".data] :=
  scan_never_overwrites ["x.exe".data] ["x.exe".data, "x.exe".data]
